import Mathlib

/-!
Shallow embedding of the redis-lite key-value store (Go implementation):
the RESP protocol codec (resp/resp.go Marshal, resp/reader.go Read), the
command handlers over the in-memory keyspace (store/handlers.go,
store/db.go), the append-only-file replay (persistence/aof.go Read) and
the per-command step of the connection handler (server/server.go
handleConnection).

Conventions of the embedding:
- Go byte strings are modelled as `List Char`, one `Char` per byte; the
  Go conversions `string(b)` and `[]byte(s)` are byte-wise identities and
  disappear.
- The Go `RespValue` struct is a tagged union in practice (the factory
  functions set exactly the field belonging to `Type`), so it is modelled
  as an inductive type with one constructor per type tag; reading the
  `Bulk` or `Array` field of a value of another tag yields the zero value
  (`bulkField`, `arrayItems`).
- Go `int` is modelled as `Int`; `strconv.Atoi` is modelled without its
  64-bit overflow check, which no theorem below exercises.
- The recursive descent of `Resp.Read` is expressed with an explicit
  recursion-depth budget (`fuel`); callers pass `length + 1`, which is
  never exhausted on the inputs considered because every nested call
  consumes at least one byte.  The Go parser indexes into a fixed buffer;
  since every access is relative to the current position, the embedding
  threads the remaining suffix instead.
- `strconv.Atoi` failure messages and the `fmt.Errorf` wrapping are
  abbreviated: theorems only distinguish `.ok` from `.error`.
- In `readBulk`, a declared length below -1 makes the Go code panic on
  the slice expression `r.buf[start:end]`; the embedding returns a
  distinguished error in that case.
- The Go map `cache` is modelled as an association list with at most one
  binding per key; `map[k] = v`, lookup and `delete` become `ksSet`,
  `ksFind` and `ksErase`.  `strings.TrimSpace` and `strings.ToUpper` are
  modelled on the ASCII range actually exercised by keys and command
  names.
-/

namespace RedisLite

/-- The ASCII apostrophe, used in the handler error messages. -/
def quoteChar : Char := Char.ofNat 39

/-- Bytes skipped by `Resp.HasNext` between top-level values. -/
def isCrlfByte (c : Char) : Bool := c = '\r' || c = '\n'

/-- ASCII white space as trimmed from keys by `strings.TrimSpace`
(the Go function also trims non-ASCII Unicode space, not modelled). -/
def isSpaceByte (c : Char) : Bool :=
  c = ' ' || c = '\t' || c = '\n' || c = Char.ofNat 11 || c = Char.ofNat 12 || c = '\r'

/-- `strings.TrimSpace` on ASCII input. -/
def trimSpace (s : List Char) : List Char :=
  ((s.dropWhile isSpaceByte).reverse.dropWhile isSpaceByte).reverse

/-- `strings.ToUpper` on one ASCII character. -/
def toUpperChar (c : Char) : Char :=
  if 'a' ≤ c ∧ c ≤ 'z' then Char.ofNat (c.toNat - 32) else c

/-- Value of an ASCII decimal digit, as accepted by `strconv.Atoi`. -/
def digitVal (c : Char) : Option Nat :=
  if 48 ≤ c.toNat ∧ c.toNat ≤ 57 then some (c.toNat - 48) else none

/-- Accumulating decimal parse of a digit string. -/
def charsToNatAux : Nat → List Char → Option Nat
  | acc, [] => some acc
  | acc, c :: t =>
    match digitVal c with
    | some d => charsToNatAux (acc * 10 + d) t
    | none => none

/-- Decimal parse of a nonempty digit string. -/
def charsToNat : List Char → Option Nat
  | [] => none
  | c :: t => charsToNatAux 0 (c :: t)

/-- `strconv.Atoi`: optional sign, then a nonempty run of digits. -/
def atoi (s : List Char) : Option Int :=
  match s with
  | [] => none
  | c :: t =>
    if c = '-' then (charsToNat t).map (fun n => -(n : Int))
    else if c = '+' then (charsToNat t).map (fun n => (n : Int))
    else (charsToNat (c :: t)).map (fun n => (n : Int))

/-- Digit characters of a positive number, most significant first; the
first argument is a recursion budget, exhausted never when it exceeds
the number. -/
def natDigitsAux : Nat → Nat → List Char
  | 0, _ => []
  | fuel + 1, n =>
    if n = 0 then [] else natDigitsAux fuel (n / 10) ++ [Nat.digitChar (n % 10)]

/-- Decimal digits of a natural number, most significant first
(`strconv.Itoa` on a nonnegative value). -/
def natToChars (n : Nat) : List Char :=
  if n = 0 then ['0'] else natDigitsAux (n + 1) n

/-- `strconv.Itoa`. -/
def intToChars (i : Int) : List Char :=
  if i < 0 then '-' :: natToChars (-i).toNat else natToChars i.toNat

/-- The decoded value model: the Go `RespValue` struct together with its
type tag, one constructor per tag constant (`RespString`, `RespError`,
`RespInteger`, `RespBulk`, `RespArray`, `RespNull`). -/
inductive RespValue where
  | simpleStr (s : List Char)
  | errMsg (s : List Char)
  | integer (i : Int)
  | bulk (s : List Char)
  | array (items : List RespValue)
  | null

mutual
def decEqResp : (a b : RespValue) → Decidable (a = b)
  | .simpleStr a, .simpleStr b =>
    match instDecidableEqList a b with
    | isTrue h => isTrue (by rw [h])
    | isFalse h => isFalse (fun hh => by cases hh; exact h rfl)
  | .errMsg a, .errMsg b =>
    match instDecidableEqList a b with
    | isTrue h => isTrue (by rw [h])
    | isFalse h => isFalse (fun hh => by cases hh; exact h rfl)
  | .integer a, .integer b =>
    match Int.decEq a b with
    | isTrue h => isTrue (by rw [h])
    | isFalse h => isFalse (fun hh => by cases hh; exact h rfl)
  | .bulk a, .bulk b =>
    match instDecidableEqList a b with
    | isTrue h => isTrue (by rw [h])
    | isFalse h => isFalse (fun hh => by cases hh; exact h rfl)
  | .array a, .array b =>
    match decEqRespList a b with
    | isTrue h => isTrue (by rw [h])
    | isFalse h => isFalse (fun hh => by cases hh; exact h rfl)
  | .null, .null => isTrue rfl
  | .simpleStr _, .errMsg _ => isFalse (fun h => nomatch h)
  | .simpleStr _, .integer _ => isFalse (fun h => nomatch h)
  | .simpleStr _, .bulk _ => isFalse (fun h => nomatch h)
  | .simpleStr _, .array _ => isFalse (fun h => nomatch h)
  | .simpleStr _, .null => isFalse (fun h => nomatch h)
  | .errMsg _, .simpleStr _ => isFalse (fun h => nomatch h)
  | .errMsg _, .integer _ => isFalse (fun h => nomatch h)
  | .errMsg _, .bulk _ => isFalse (fun h => nomatch h)
  | .errMsg _, .array _ => isFalse (fun h => nomatch h)
  | .errMsg _, .null => isFalse (fun h => nomatch h)
  | .integer _, .simpleStr _ => isFalse (fun h => nomatch h)
  | .integer _, .errMsg _ => isFalse (fun h => nomatch h)
  | .integer _, .bulk _ => isFalse (fun h => nomatch h)
  | .integer _, .array _ => isFalse (fun h => nomatch h)
  | .integer _, .null => isFalse (fun h => nomatch h)
  | .bulk _, .simpleStr _ => isFalse (fun h => nomatch h)
  | .bulk _, .errMsg _ => isFalse (fun h => nomatch h)
  | .bulk _, .integer _ => isFalse (fun h => nomatch h)
  | .bulk _, .array _ => isFalse (fun h => nomatch h)
  | .bulk _, .null => isFalse (fun h => nomatch h)
  | .array _, .simpleStr _ => isFalse (fun h => nomatch h)
  | .array _, .errMsg _ => isFalse (fun h => nomatch h)
  | .array _, .integer _ => isFalse (fun h => nomatch h)
  | .array _, .bulk _ => isFalse (fun h => nomatch h)
  | .array _, .null => isFalse (fun h => nomatch h)
  | .null, .simpleStr _ => isFalse (fun h => nomatch h)
  | .null, .errMsg _ => isFalse (fun h => nomatch h)
  | .null, .integer _ => isFalse (fun h => nomatch h)
  | .null, .bulk _ => isFalse (fun h => nomatch h)
  | .null, .array _ => isFalse (fun h => nomatch h)
termination_by structural a _ => a
def decEqRespList : (a b : List RespValue) → Decidable (a = b)
  | [], [] => isTrue rfl
  | [], _ :: _ => isFalse (fun h => nomatch h)
  | _ :: _, [] => isFalse (fun h => nomatch h)
  | a :: t, b :: u =>
    match decEqResp a b with
    | isTrue h1 =>
      match decEqRespList t u with
      | isTrue h2 => isTrue (by rw [h1, h2])
      | isFalse h2 => isFalse (fun hh => by cases hh; exact h2 rfl)
    | isFalse h1 => isFalse (fun hh => by cases hh; exact h1 rfl)
termination_by structural a _ => a
end

instance : DecidableEq RespValue := decEqResp

/-- The `Bulk` field of the Go struct: empty unless the value was built
with the bulk-string tag. -/
def RespValue.bulkField : RespValue → List Char
  | .bulk s => s
  | _ => []

/-- The `Array` field of the Go struct: nil unless the value was built
with the array tag. -/
def RespValue.arrayItems : RespValue → List RespValue
  | .array l => l
  | _ => []

mutual
/-- `RespValue.Marshal` from resp/resp.go. -/
def marshal : RespValue → List Char
  | .simpleStr s => '+' :: (s ++ ['\r', '\n'])
  | .errMsg s => '-' :: (s ++ ['\r', '\n'])
  | .integer i => ':' :: (intToChars i ++ ['\r', '\n'])
  | .bulk s => '$' :: (natToChars s.length ++ ['\r', '\n'] ++ s ++ ['\r', '\n'])
  | .array items => '*' :: (natToChars items.length ++ ['\r', '\n'] ++ marshalList items)
  | .null => ['_', '\r', '\n']
termination_by structural v => v
/-- Concatenated marshalling of a sequence of values, as in
`marshalArray` and as records accumulate in the append-only file. -/
def marshalList : List RespValue → List Char
  | [] => []
  | v :: t => marshal v ++ marshalList t
termination_by structural l => l
end

/-- `Resp.readLine` on the remaining suffix: scan until a CRLF pair or
until at most one byte remains, return the scanned prefix and skip two
bytes. -/
def readLine : List Char → List Char × List Char
  | [] => ([], [])
  | [_] => ([], [])
  | a :: b :: t =>
    if a = '\r' ∧ b = '\n' then ([], t)
    else
      let p := readLine (b :: t)
      (a :: p.1, p.2)

mutual
/-- `Resp.Read` from resp/reader.go: dispatch on the type byte.  `fuel`
bounds the recursion depth and is threaded down by one on entering the
element loop of an array; the top-level entry points pass more fuel than
any parse can consume. -/
def readOne : Nat → List Char → Except String (RespValue × List Char)
  | 0, _ => .error "recursion limit"
  | fuel + 1, data =>
    match data with
    | [] => .error "empty buffer"
    | c :: t =>
      if c = '+' then
        let p := readLine t
        .ok (.simpleStr p.1, p.2)
      else if c = '-' then
        let p := readLine t
        .ok (.errMsg p.1, p.2)
      else if c = ':' then
        let p := readLine t
        match atoi p.1 with
        | none => .error "invalid integer"
        | some i => .ok (.integer i, p.2)
      else if c = '$' then
        let p := readLine t
        match atoi p.1 with
        | none => .error "invalid bulk string length"
        | some len =>
          if len = -1 then .ok (.null, p.2)
          else if (p.2.length : Int) < len then .error "bulk string out of bounds"
          else if len < 0 then .error "slice bounds out of range"
          else .ok (.bulk (p.2.take len.toNat), p.2.drop (len.toNat + 2))
      else if c = '*' then
        let p := readLine t
        match atoi p.1 with
        | none => .error "invalid array length"
        | some len =>
          if len = -1 then .ok (.null, p.2)
          else
            match readMany fuel len.toNat p.2 with
            | .error e => .error ("array item: " ++ e)
            | .ok (vs, rest) => .ok (.array vs, rest)
      else if c = '_' then .ok (.null, t)
      else .error "unknown RESP type"
/-- The element loop of `readArray`: read `n` consecutive values. -/
def readMany : Nat → Nat → List Char → Except String (List RespValue × List Char)
  | 0, _, _ => .error "recursion limit"
  | _ + 1, 0, d => .ok ([], d)
  | fuel + 1, n + 1, data =>
    match readOne fuel data with
    | .error e => .error e
    | .ok (v, rest) =>
      match readMany fuel n rest with
      | .error e => .error e
      | .ok (vs, d₂) => .ok (v :: vs, d₂)
end

/-- Decoding one value from a byte buffer and keeping only the value, as
`NewResp(data)` followed by one `Read()`. -/
def respReadValue (data : List Char) : Except String RespValue :=
  match readOne (data.length + 1) data with
  | .error e => .error e
  | .ok (v, _) => .ok v

/-- The in-memory store `cache` of store/db.go, as an association list
with at most one binding per key. -/
abbrev Keyspace := List (List Char × RespValue)

/-- Map lookup `cache[key]`. -/
def ksFind : Keyspace → List Char → Option RespValue
  | [], _ => none
  | p :: t, key => if p.1 = key then some p.2 else ksFind t key

/-- The `_, ok := cache[key]` presence test. -/
def ksContains (ks : Keyspace) (key : List Char) : Bool :=
  (ksFind ks key).isSome

/-- Map removal `delete(cache, key)`. -/
def ksErase : Keyspace → List Char → Keyspace
  | [], _ => []
  | p :: t, key => if p.1 = key then ksErase t key else p :: ksErase t key

/-- Map update `cache[key] = v`. -/
def ksSet (key : List Char) (v : RespValue) (ks : Keyspace) : Keyspace :=
  (key, v) :: ksErase ks key

/-- The handler arity error text, e.g. `ERR wrong number of arguments
for SET` with the command name quoted. -/
def arityErr (name : List Char) : List Char :=
  "ERR wrong number of arguments for ".data ++ quoteChar :: (name ++ [quoteChar])

/-- The arity error text as written in the specification, without the
ERR prefix. -/
def specArityMsg (name : List Char) : List Char :=
  "wrong number of arguments for ".data ++ quoteChar :: (name ++ [quoteChar])

/-- The `ping` handler of store/handlers.go.  Handlers receive and
return the keyspace explicitly, standing for the shared `cache`. -/
def ping (args : List RespValue) (ks : Keyspace) : RespValue × Keyspace :=
  if args.length = 0 then (.simpleStr "PONG".data, ks)
  else (.bulk (List.intercalate [' '] (args.map RespValue.bulkField)), ks)

/-- The `set` handler of store/handlers.go. -/
def set (args : List RespValue) (ks : Keyspace) : RespValue × Keyspace :=
  match args with
  | [a0, a1] => (.simpleStr "OK".data, ksSet (trimSpace a0.bulkField) a1 ks)
  | _ => (.errMsg (arityErr "SET".data), ks)

/-- The `get` handler of store/handlers.go. -/
def get (args : List RespValue) (ks : Keyspace) : RespValue × Keyspace :=
  match args with
  | [a0] =>
    match ksFind ks (trimSpace a0.bulkField) with
    | some v => (v, ks)
    | none => (.null, ks)
  | _ => (.errMsg (arityErr "GET".data), ks)

/-- The deletion loop of the `del` handler. -/
def delLoop : List RespValue → Keyspace → Nat → Keyspace × Nat
  | [], ks, n => (ks, n)
  | a :: t, ks, n =>
    let key := trimSpace a.bulkField
    if ksContains ks key then delLoop t (ksErase ks key) (n + 1)
    else delLoop t ks n

/-- The `del` handler of store/handlers.go. -/
def del (args : List RespValue) (ks : Keyspace) : RespValue × Keyspace :=
  match args with
  | [] => (.errMsg (arityErr "DEL".data), ks)
  | _ :: _ =>
    let p := delLoop args ks 0
    (.integer (p.2 : Int), p.1)

/-- The `Handlers` registry of store/handlers.go. -/
def handlersLookup (name : List Char) :
    Option (List RespValue → Keyspace → RespValue × Keyspace) :=
  if name = "PING".data then some ping
  else if name = "GET".data then some get
  else if name = "SET".data then some set
  else if name = "DEL".data then some del
  else none

/-- One iteration of the `Aof.Read` replay loop body, from
persistence/aof.go: `HasNext` first skips CR and LF bytes; a parse error
aborts the whole replay; a value that is not a nonempty array is
skipped; an unrecognized command name aborts; otherwise the handler runs
and its response is discarded. -/
def replayLoop : Nat → List Char → Keyspace → Except String Keyspace
  | 0, _, _ => .error "recursion limit"
  | fuel + 1, data, ks =>
    match data.dropWhile isCrlfByte with
    | [] => .ok ks
    | c :: t =>
      match readOne ((c :: t).length + 1) (c :: t) with
      | .error e => .error ("error parsing AOF command: " ++ e)
      | .ok (cmd, rest) =>
        match cmd with
        | .array (first :: args) =>
          match handlersLookup ((RespValue.bulkField first).map toUpperChar) with
          | none => .error "unknown command in AOF"
          | some h => replayLoop fuel rest (h args ks).2
        | _ => replayLoop fuel rest ks

/-- `Aof.Read`: replay the whole byte contents of the append-only file
against a keyspace.  An `.error` result makes `NewAof` fail, which is
fatal at process startup. -/
def aofRead (data : List Char) (ks : Keyspace) : Except String Keyspace :=
  replayLoop (data.length + 1) data ks

/-- The effect of one replayed record on the keyspace (response
discarded), mirroring the dispatch performed inside `Aof.Read`. -/
def replayApply (ks : Keyspace) (cmd : RespValue) : Keyspace :=
  match cmd with
  | .array (first :: args) =>
    match handlersLookup ((RespValue.bulkField first).map toUpperChar) with
    | some h => (h args ks).2
    | none => ks
  | _ => ks

/-- Keyspace plus the bytes so far appended to the append-only file. -/
structure ServerState where
  ks : Keyspace
  aofLog : List Char

/-- One iteration of `handleConnection` from server/server.go on an
already received buffer: decode one value; on a decode error or a value
without a nonempty array an error response; on an unknown name an error
response; otherwise the command is appended to the AOF before the
handler runs, and the handler response is returned. -/
def handleCommand (buf : List Char) (st : ServerState) : RespValue × ServerState :=
  match readOne (buf.length + 1) buf with
  | .error _ => (.errMsg "ERR invalid command".data, st)
  | .ok (cmd, _) =>
    match cmd.arrayItems with
    | [] => (.errMsg "ERR invalid command".data, st)
    | first :: args =>
      match handlersLookup ((RespValue.bulkField first).map toUpperChar) with
      | none => (.errMsg "ERR unknown command".data, st)
      | some h =>
        let p := h args st.ks
        (p.1, ⟨p.2, st.aofLog ++ marshal cmd⟩)

/-- Presence of the CRLF byte pair anywhere in a string; a simple-string
or error line containing it cannot survive a marshal and decode. -/
def hasCRLF : List Char → Bool
  | [] => false
  | [_] => false
  | a :: b :: t => (a = '\r' && b = '\n') || hasCRLF (b :: t)

mutual
/-- Whether a decode of the marshalled bytes leaves a dangling CRLF:
`Marshal` emits a trailing CRLF after the `_` of a null, but `Read`
consumes only the `_`. -/
def endsWithNull : RespValue → Bool
  | .null => true
  | .array l => endsWithNullList l
  | _ => false
termination_by structural v => v
def endsWithNullList : List RespValue → Bool
  | [] => false
  | v :: t => if t.isEmpty then endsWithNull v else endsWithNullList t
termination_by structural l => l
end

mutual
/-- The class of values whose marshalling decodes back exactly: no CRLF
pair inside a simple-string or error line, and inside any array no null
tail before a further element. -/
def cleanValue : RespValue → Bool
  | .simpleStr s => !hasCRLF s
  | .errMsg s => !hasCRLF s
  | .array l => cleanList l
  | _ => true
termination_by structural v => v
def cleanList : List RespValue → Bool
  | [] => true
  | v :: t => cleanValue v && (t.isEmpty || (!endsWithNull v && cleanList t))
termination_by structural l => l
end

mutual
/-- Recursion-depth weight of a value: enough fuel for `readOne`. -/
def nodes : RespValue → Nat
  | .array l => 1 + nodesList l
  | _ => 1
termination_by structural v => v
def nodesList : List RespValue → Nat
  | [] => 1
  | v :: t => nodes v + nodesList t
termination_by structural l => l
end

/-- A record as written to the append-only file by the server: a
nonempty array whose uppercased first bulk field is a registered
command. -/
def GoodRecord (cmd : RespValue) : Prop :=
  cleanValue cmd = true ∧ endsWithNull cmd = false ∧
    ∃ first args, cmd = .array (first :: args) ∧
      (handlersLookup ((RespValue.bulkField first).map toUpperChar)).isSome = true

/-- The encoded form of `SET key value` as the client sends it and the
server appends it to the log. -/
def setCmd (key value : List Char) : RespValue :=
  .array [.bulk "SET".data, .bulk key, .bulk value]

/-- The encoded form of `DEL key`. -/
def delCmd (key : List Char) : RespValue :=
  .array [.bulk "DEL".data, .bulk key]


/-! Arithmetic of the decimal codec: `natToChars`, `charsToNat`, `atoi`
and `intToChars` invert each other. -/

theorem natDigitsAux_eq_digits :
    ∀ fuel n, n ≤ fuel → natDigitsAux fuel n = ((Nat.digits 10 n).map Nat.digitChar).reverse := by
  intro fuel
  induction fuel with
  | zero =>
    intro n hn
    have : n = 0 := Nat.le_zero.mp hn
    subst this
    simp [natDigitsAux]
  | succ f ih =>
    intro n hn
    by_cases h0 : n = 0
    · subst h0
      simp [natDigitsAux]
    · have hpos : 0 < n := Nat.pos_of_ne_zero h0
      have hdig : Nat.digits 10 n = n % 10 :: Nat.digits 10 (n / 10) :=
        Nat.digits_def' (by norm_num) hpos
      have hdiv : n / 10 ≤ f := by
        have := Nat.div_lt_self hpos (by norm_num : 1 < 10)
        omega
      simp only [natDigitsAux, if_neg h0, hdig, List.map_cons, List.reverse_cons, ih _ hdiv]

theorem charsToNatAux_append (l₁ l₂ : List Char) :
    ∀ acc, charsToNatAux acc (l₁ ++ l₂) =
      (charsToNatAux acc l₁).bind (fun m => charsToNatAux m l₂) := by
  induction l₁ with
  | nil => intro acc; simp [charsToNatAux]
  | cons c t ih =>
    intro acc
    simp only [List.cons_append, charsToNatAux]
    cases h : digitVal c with
    | none => simp
    | some d => simp [ih]

theorem digitVal_digitChar (d : Nat) (h : d < 10) :
    digitVal (Nat.digitChar d) = some d := by
  interval_cases d <;> decide

theorem digitChar_toNat_range (d : Nat) (h : d < 10) :
    48 ≤ (Nat.digitChar d).toNat ∧ (Nat.digitChar d).toNat ≤ 57 := by
  interval_cases d <;> decide

theorem charsToNatAux_digits (ds : List Nat) (hds : ∀ d ∈ ds, d < 10) :
    ∀ acc, charsToNatAux acc ((ds.map Nat.digitChar).reverse) =
      some (acc * 10 ^ ds.length + Nat.ofDigits 10 ds) := by
  induction ds with
  | nil => intro acc; simp [charsToNatAux, Nat.ofDigits_nil]
  | cons d t ih =>
    intro acc
    have hd : d < 10 := hds d (List.mem_cons_self d t)
    have ht : ∀ x ∈ t, x < 10 := fun x hx => hds x (List.mem_cons_of_mem d hx)
    rw [List.map_cons, List.reverse_cons, charsToNatAux_append, ih ht acc]
    simp only [Option.some_bind, charsToNatAux, digitVal_digitChar d hd, Nat.ofDigits_cons,
      List.length_cons]
    congr 1
    ring

theorem charsToNat_natToChars (n : Nat) : charsToNat (natToChars n) = some n := by
  by_cases h0 : n = 0
  · subst h0; decide
  · have hne : Nat.digits 10 n ≠ [] := Nat.digits_ne_nil_iff_ne_zero.mpr h0
    have hds : ∀ d ∈ Nat.digits 10 n, d < 10 :=
      fun d hd => Nat.digits_lt_base (by norm_num) hd
    have hval := charsToNatAux_digits (Nat.digits 10 n) hds 0
    rw [Nat.ofDigits_digits, Nat.zero_mul, Nat.zero_add] at hval
    have hrepr : natToChars n = ((Nat.digits 10 n).map Nat.digitChar).reverse := by
      rw [natToChars, if_neg h0, natDigitsAux_eq_digits (n + 1) n (Nat.le_succ n)]
    rw [hrepr]
    cases hsh : ((Nat.digits 10 n).map Nat.digitChar).reverse with
    | nil =>
      exfalso
      apply hne
      have := congrArg List.length hsh
      simp at this
      exact this
    | cons c t =>
      rw [charsToNat, ← hsh, hval]

theorem natToChars_ne_nil (n : Nat) : natToChars n ≠ [] := by
  by_cases h0 : n = 0
  · subst h0; decide
  · intro hcon
    have hval := charsToNat_natToChars n
    rw [hcon] at hval
    simp [charsToNat] at hval

theorem natToChars_toNat_range (n : Nat) :
    ∀ c ∈ natToChars n, 48 ≤ c.toNat ∧ c.toNat ≤ 57 := by
  by_cases h0 : n = 0
  · subst h0; decide
  · intro c hc
    rw [natToChars, if_neg h0, natDigitsAux_eq_digits (n + 1) n (Nat.le_succ n)] at hc
    rw [List.mem_reverse, List.mem_map] at hc
    obtain ⟨d, hd, rfl⟩ := hc
    exact digitChar_toNat_range d (Nat.digits_lt_base (by norm_num) hd)

theorem atoi_natToChars (n : Nat) : atoi (natToChars n) = some (n : Int) := by
  cases hsh : natToChars n with
  | nil => exact absurd hsh (natToChars_ne_nil n)
  | cons c t =>
    have hc : 48 ≤ c.toNat ∧ c.toNat ≤ 57 := by
      apply natToChars_toNat_range n
      rw [hsh]
      exact List.mem_cons_self c t
    have hminus : ¬(c = '-') := by
      intro h
      subst h
      revert hc
      decide
    have hplus : ¬(c = '+') := by
      intro h
      subst h
      revert hc
      decide
    have := charsToNat_natToChars n
    rw [hsh] at this
    simp [atoi, hminus, hplus, this]

theorem atoi_intToChars (i : Int) : atoi (intToChars i) = some i := by
  by_cases hneg : i < 0
  · have h1 : (0 : Int) ≤ -i := by omega
    rw [intToChars, if_pos hneg]
    have hnat := charsToNat_natToChars (-i).toNat
    simp [atoi, hnat]
    omega
  · rw [intToChars, if_neg hneg]
    rw [atoi_natToChars i.toNat]
    congr 1
    omega

/-! The line scanner `readLine` recovers a CRLF-free line exactly. -/

theorem hasCRLF_eq_false_of_no_cr (l : List Char) (h : ∀ c ∈ l, c.toNat ≠ 13) :
    hasCRLF l = false := by
  induction l with
  | nil => rfl
  | cons a t ih =>
    cases t with
    | nil => rfl
    | cons b u =>
      have ha : a.toNat ≠ 13 := h a (List.mem_cons_self a _)
      have hrest : ∀ c ∈ b :: u, c.toNat ≠ 13 := fun c hc => h c (List.mem_cons_of_mem a hc)
      have hno : ¬(a = '\r') := by
        intro hcon
        subst hcon
        exact ha rfl
      simp [hasCRLF, hno, ih hrest]

theorem hasCRLF_natToChars (n : Nat) : hasCRLF (natToChars n) = false := by
  apply hasCRLF_eq_false_of_no_cr
  intro c hc
  have := natToChars_toNat_range n c hc
  omega

theorem hasCRLF_intToChars (i : Int) : hasCRLF (intToChars i) = false := by
  apply hasCRLF_eq_false_of_no_cr
  intro c hc
  rw [intToChars] at hc
  by_cases hneg : i < 0
  · rw [if_pos hneg] at hc
    cases hc with
    | head => decide
    | tail _ hmem =>
      have := natToChars_toNat_range (-i).toNat c hmem
      omega
  · rw [if_neg hneg] at hc
    have := natToChars_toNat_range i.toNat c hc
    omega

theorem readLine_append (line rest : List Char) (h : hasCRLF line = false) :
    readLine (line ++ '\r' :: '\n' :: rest) = (line, rest) := by
  induction line with
  | nil => simp [readLine]
  | cons c cs ih =>
    cases cs with
    | nil =>
      have hcr : ¬(c = '\r' ∧ '\r' = '\n') := by
        intro hcon
        exact absurd hcon.2 (by decide)
      simp [readLine, hcr]
    | cons c2 cs2 =>
      have hsplit : ¬(c = '\r' ∧ c2 = '\n') ∧ hasCRLF (c2 :: cs2) = false := by
        by_cases hpair : c = '\r' ∧ c2 = '\n'
        · exfalso
          obtain ⟨h1, h2⟩ := hpair
          subst h1
          subst h2
          simp [hasCRLF] at h
        · constructor
          · exact hpair
          · rw [hasCRLF] at h
            simp only [Bool.or_eq_false_iff] at h
            exact h.2
      have ihres := ih hsplit.2
      simp only [List.cons_append, readLine, if_neg hsplit.1]
      rw [List.cons_append] at ihres
      simp [ihres]

/-! Size bookkeeping: the recursion budget passed by the entry points
(`length + 1`) always covers the weight of a marshalled value. -/

theorem nodes_pos (v : RespValue) : 1 ≤ nodes v := by
  cases v <;> simp [nodes]

theorem nodesList_pos (l : List RespValue) : 1 ≤ nodesList l := by
  cases l with
  | nil => simp [nodesList]
  | cons v t =>
    have := nodes_pos v
    simp [nodesList]
    omega

theorem natToChars_length_pos (n : Nat) : 1 ≤ (natToChars n).length := by
  have := natToChars_ne_nil n
  cases h : natToChars n with
  | nil => exact absurd h this
  | cons c t => simp

theorem nodes_le_marshal_aux (k : Nat) :
    (∀ v, nodes v ≤ k → nodes v ≤ (marshal v).length) ∧
      (∀ l, nodesList l ≤ k → nodesList l ≤ (marshalList l).length + 1) := by
  induction k with
  | zero =>
    constructor
    · intro v hv
      have := nodes_pos v
      omega
    · intro l hl
      have := nodesList_pos l
      omega
  | succ k ih =>
    constructor
    · intro v hv
      cases v with
      | simpleStr s => simp [nodes, marshal]
      | errMsg s => simp [nodes, marshal]
      | integer i => simp [nodes, marshal]
      | bulk s => simp [nodes, marshal]
      | null => simp [nodes, marshal]
      | array items =>
        have h1 : nodesList items ≤ k := by
          have := nodesList_pos items
          simp [nodes] at hv
          omega
        have h2 := ih.2 items h1
        have h3 := natToChars_length_pos items.length
        simp [nodes, marshal]
        omega
    · intro l hl
      cases l with
      | nil => simp [nodesList, marshalList]
      | cons v t =>
        have hv : nodes v ≤ k := by
          have := nodesList_pos t
          simp [nodesList] at hl
          omega
        have ht : nodesList t ≤ k := by
          have := nodes_pos v
          simp [nodesList] at hl
          omega
        have h1 := ih.1 v hv
        have h2 := ih.2 t ht
        simp [nodesList, marshalList]
        omega

theorem nodes_le_marshal (v : RespValue) : nodes v ≤ (marshal v).length :=
  (nodes_le_marshal_aux (nodes v)).1 v le_rfl

theorem readMany_zero (f : Nat) (d : List Char) (hf : 1 ≤ f) :
    readMany f 0 d = .ok ([], d) := by
  cases f with
  | zero => omega
  | succ f2 => rfl

/-! The heart of the round-trip: decoding the marshalled bytes of a
clean value returns that value, leaving behind exactly the unconsumed
CRLF when the value ends in a null. -/

theorem readOne_marshal_aux (fuel : Nat) :
    (∀ v rest, cleanValue v = true → nodes v ≤ fuel →
      readOne fuel (marshal v ++ rest) =
        .ok (v, if endsWithNull v then '\r' :: '\n' :: rest else rest)) ∧
      (∀ l rest, cleanList l = true → nodesList l ≤ fuel →
        readMany fuel l.length (marshalList l ++ rest) =
          .ok (l, if endsWithNullList l then '\r' :: '\n' :: rest else rest)) := by
  induction fuel with
  | zero =>
    constructor
    · intro v rest _ hn
      have := nodes_pos v
      omega
    · intro l rest _ hn
      have := nodesList_pos l
      omega
  | succ f ih =>
    obtain ⟨ihOne, ihMany⟩ := ih
    constructor
    · intro v rest hclean hn
      cases v with
      | simpleStr s =>
        have hs : hasCRLF s = false := by
          simpa [cleanValue] using hclean
        have hshape :
            marshal (.simpleStr s) ++ rest = '+' :: (s ++ '\r' :: '\n' :: rest) := by
          simp [marshal]
        rw [hshape]
        simp only [readOne, readLine_append s rest hs]
        simp [endsWithNull]
      | errMsg s =>
        have hs : hasCRLF s = false := by
          simpa [cleanValue] using hclean
        have hshape :
            marshal (.errMsg s) ++ rest = '-' :: (s ++ '\r' :: '\n' :: rest) := by
          simp [marshal]
        rw [hshape]
        simp only [readOne, readLine_append s rest hs]
        simp [endsWithNull]
      | integer i =>
        have hshape :
            marshal (.integer i) ++ rest = ':' :: (intToChars i ++ '\r' :: '\n' :: rest) := by
          simp [marshal]
        rw [hshape]
        simp only [readOne, readLine_append (intToChars i) rest (hasCRLF_intToChars i)]
        simp [atoi_intToChars, endsWithNull]
      | bulk s =>
        have hshape :
            marshal (.bulk s) ++ rest =
              '$' :: (natToChars s.length ++ '\r' :: '\n' :: (s ++ '\r' :: '\n' :: rest)) := by
          simp [marshal]
        rw [hshape]
        simp only [readOne,
          readLine_append (natToChars s.length) (s ++ '\r' :: '\n' :: rest)
            (hasCRLF_natToChars s.length)]
        rw [atoi_natToChars s.length]
        have hne1 : ¬((s.length : Int) = -1) := by omega
        have hlen : ¬(((s ++ '\r' :: '\n' :: rest).length : Int) < (s.length : Int)) := by
          simp [List.length_append]
          omega
        have hneg : ¬((s.length : Int) < 0) := by omega
        have htn : ((s.length : Int)).toNat = s.length := by omega
        simp only [if_neg hne1, hlen, if_neg hneg, htn, if_false, ite_false, if_neg]
        have htake : (s ++ '\r' :: '\n' :: rest).take s.length = s := List.take_left s _
        have hdrop : (s ++ '\r' :: '\n' :: rest).drop (s.length + 2) = rest := by
          have hsh : s ++ '\r' :: '\n' :: rest = (s ++ ['\r', '\n']) ++ rest := by
            simp
          rw [hsh]
          apply List.drop_left'
          simp
        rw [htake, hdrop]
        simp [endsWithNull]
      | array items =>
        have hcl : cleanList items = true := by
          simpa [cleanValue] using hclean
        have hfl : nodesList items ≤ f := by
          simp [nodes] at hn
          omega
        have hshape :
            marshal (.array items) ++ rest =
              '*' :: (natToChars items.length ++ '\r' :: '\n' :: (marshalList items ++ rest)) := by
          simp [marshal]
        rw [hshape]
        simp only [readOne,
          readLine_append (natToChars items.length) (marshalList items ++ rest)
            (hasCRLF_natToChars items.length)]
        rw [atoi_natToChars items.length]
        have hne1 : ¬((items.length : Int) = -1) := by omega
        have htn : ((items.length : Int)).toNat = items.length := by omega
        simp only [if_neg hne1, htn]
        rw [ihMany items rest hcl hfl]
        simp [endsWithNull]
      | null =>
        have hshape : marshal .null ++ rest = '_' :: '\r' :: '\n' :: rest := by
          simp [marshal]
        rw [hshape]
        simp [readOne, endsWithNull]
    · intro l rest hclean hn
      cases l with
      | nil =>
        simp [marshalList, readMany, endsWithNullList]
      | cons v t =>
        have hcv : cleanValue v = true := by
          simp [cleanList, Bool.and_eq_true] at hclean
          exact hclean.1
        have hfv : nodes v ≤ f := by
          have := nodesList_pos t
          simp [nodesList] at hn
          omega
        have hft : nodesList t ≤ f := by
          have := nodes_pos v
          simp [nodesList] at hn
          omega
        have hshape :
            marshalList (v :: t) ++ rest = marshal v ++ (marshalList t ++ rest) := by
          simp [marshalList]
        have hlen : (v :: t).length = t.length + 1 := by simp
        rw [hshape, hlen]
        simp only [readMany]
        rw [ihOne v (marshalList t ++ rest) hcv hfv]
        cases t with
        | nil =>
          have hf1 : 1 ≤ f := by
            have := nodes_pos v
            omega
          have hends : endsWithNullList [v] = endsWithNull v := by
            simp [endsWithNullList]
          simp only [marshalList, List.nil_append, List.length_nil]
          show (match readMany f 0 (if endsWithNull v = true then '\r' :: '\n' :: rest else rest) with
              | .error e => (Except.error e : Except String (List RespValue × List Char))
              | .ok (vs, d₂) => Except.ok (v :: vs, d₂)) =
            Except.ok ([v], if endsWithNullList [v] = true then '\r' :: '\n' :: rest else rest)
          rw [readMany_zero f _ hf1, hends]
        | cons w u =>
          have hx : (cleanValue v &&
              ((w :: u).isEmpty || (!endsWithNull v && cleanList (w :: u)))) = true := hclean
          simp only [List.isEmpty_cons, Bool.false_or, Bool.and_eq_true, Bool.not_eq_true'] at hx
          have hnotnull : endsWithNull v = false ∧ cleanList (w :: u) = true := hx.2
          have hpad :
              (if endsWithNull v = true then '\r' :: '\n' :: (marshalList (w :: u) ++ rest)
                else marshalList (w :: u) ++ rest) = marshalList (w :: u) ++ rest := by
            rw [hnotnull.1]
            simp
          have hends : endsWithNullList (v :: w :: u) = endsWithNullList (w :: u) := by
            simp [endsWithNullList]
          rw [hpad]
          show (match readMany f (w :: u).length (marshalList (w :: u) ++ rest) with
              | .error e => (Except.error e : Except String (List RespValue × List Char))
              | .ok (vs, d₂) => Except.ok (v :: vs, d₂)) =
            Except.ok (v :: w :: u,
              if endsWithNullList (v :: w :: u) = true then '\r' :: '\n' :: rest else rest)
          rw [ihMany (w :: u) rest hnotnull.2 hft, hends]

theorem readOne_marshal (v : RespValue) (rest : List Char) (fuel : Nat)
    (hclean : cleanValue v = true) (hfuel : nodes v ≤ fuel) :
    readOne fuel (marshal v ++ rest) =
      .ok (v, if endsWithNull v then '\r' :: '\n' :: rest else rest) :=
  (readOne_marshal_aux fuel).1 v rest hclean hfuel

theorem respReadValue_marshal (v : RespValue) (hclean : cleanValue v = true) :
    respReadValue (marshal v) = .ok v := by
  have hfuel : nodes v ≤ (marshal v).length + 1 := by
    have := nodes_le_marshal v
    omega
  have h := readOne_marshal v [] ((marshal v).length + 1) hclean hfuel
  rw [List.append_nil] at h
  show (match readOne ((marshal v).length + 1) (marshal v) with
      | .error e => (Except.error e : Except String RespValue)
      | .ok (w, _) => .ok w) = .ok v
  rw [h]

/-! Keyspace laws used by the handler theorems. -/

theorem ksFind_ksErase (ks : Keyspace) (k key : List Char) :
    ksFind (ksErase ks k) key = if k = key then none else ksFind ks key := by
  induction ks with
  | nil => simp [ksErase, ksFind]
  | cons p t ih =>
    by_cases hp : p.1 = k
    · rw [ksErase, if_pos hp, ih]
      by_cases hk : k = key
      · simp [hk]
      · have hpk : ¬(p.1 = key) := by
          rw [hp]
          exact hk
        simp [hk, ksFind, hpk]
    · rw [ksErase, if_neg hp]
      by_cases hpkey : p.1 = key
      · have hk : ¬(k = key) := by
          intro hcon
          exact hp (by rw [hpkey, hcon])
        simp [ksFind, hpkey, hk]
      · simp [ksFind, hpkey, ih]

theorem ksFind_ksSet_self (ks : Keyspace) (k : List Char) (v : RespValue) :
    ksFind (ksSet k v ks) k = some v := by
  simp [ksSet, ksFind]

theorem get_arity (ks : Keyspace) (args : List RespValue) (h : args.length ≠ 1) :
    get args ks = (.errMsg (arityErr "GET".data), ks) := by
  match args with
  | [] => rfl
  | [a0] => exact absurd rfl h
  | a0 :: a1 :: t => rfl

theorem set_arity (ks : Keyspace) (args : List RespValue) (h : args.length ≠ 2) :
    set args ks = (.errMsg (arityErr "SET".data), ks) := by
  match args with
  | [] => rfl
  | [a0] => rfl
  | [a0, a1] => exact absurd rfl h
  | a0 :: a1 :: a2 :: t => rfl

theorem del_arity (ks : Keyspace) : del [] ks = (.errMsg (arityErr "DEL".data), ks) := rfl

theorem get_keyspace_unchanged (args : List RespValue) (ks : Keyspace) :
    (get args ks).2 = ks := by
  match args with
  | [] => rfl
  | [a0] =>
    rw [get]
    cases ksFind ks (trimSpace a0.bulkField) <;> rfl
  | a0 :: a1 :: t => rfl

theorem get_found (a0 : RespValue) (ks : Keyspace) (v : RespValue)
    (h : ksFind ks (trimSpace a0.bulkField) = some v) :
    get [a0] ks = (v, ks) := by
  rw [get, h]

theorem get_absent (a0 : RespValue) (ks : Keyspace)
    (h : ksFind ks (trimSpace a0.bulkField) = none) :
    get [a0] ks = (.null, ks) := by
  rw [get, h]

theorem delLoop_preserves_absent (args : List RespValue) :
    ∀ ks n key, ksFind ks key = none → ksFind (delLoop args ks n).1 key = none := by
  induction args with
  | nil =>
    intro ks n key h
    simpa [delLoop] using h
  | cons a t ih =>
    intro ks n key h
    rw [delLoop]
    by_cases hc : ksContains ks (trimSpace a.bulkField)
    · rw [if_pos hc]
      apply ih
      rw [ksFind_ksErase]
      by_cases hk : trimSpace a.bulkField = key
      · simp [hk]
      · simp [hk, h]
    · rw [if_neg hc]
      exact ih ks n key h

theorem delLoop_removes (args : List RespValue) :
    ∀ ks n key, key ∈ args.map (fun a => trimSpace a.bulkField) →
      ksFind (delLoop args ks n).1 key = none := by
  induction args with
  | nil =>
    intro ks n key h
    simp at h
  | cons a t ih =>
    intro ks n key h
    rw [List.map_cons, List.mem_cons] at h
    rw [delLoop]
    by_cases hc : ksContains ks (trimSpace a.bulkField)
    · rw [if_pos hc]
      rcases h with h | h
      · apply delLoop_preserves_absent
        rw [ksFind_ksErase]
        simp [h]
      · exact ih _ _ key h
    · rw [if_neg hc]
      rcases h with h | h
      · apply delLoop_preserves_absent
        rw [ksContains] at hc
        rw [h]
        cases hfind : ksFind ks (trimSpace a.bulkField) with
        | none => rfl
        | some v => rw [hfind] at hc; simp at hc
      · exact ih _ _ key h

/-! Replay of the append-only file: one well-formed record dispatches
its handler and the loop continues on the remaining bytes. -/

theorem marshal_ne_nil (v : RespValue) : marshal v ≠ [] := by
  cases v <;> simp [marshal]

theorem replayLoop_empty (fuel : Nat) (d : List Char) (ks : Keyspace)
    (h1 : 1 ≤ fuel) (h2 : d.dropWhile isCrlfByte = []) :
    replayLoop fuel d ks = .ok ks := by
  cases fuel with
  | zero => omega
  | succ f =>
    simp only [replayLoop]
    rw [h2]

theorem replayApply_record (ks : Keyspace) (first : RespValue) (args : List RespValue)
    (h : List RespValue → Keyspace → RespValue × Keyspace)
    (hh : handlersLookup ((RespValue.bulkField first).map toUpperChar) = some h) :
    replayApply ks (.array (first :: args)) = (h args ks).2 := by
  show (match handlersLookup ((RespValue.bulkField first).map toUpperChar) with
      | some h2 => (h2 args ks).2
      | none => ks) = (h args ks).2
  rw [hh]

theorem replayLoop_record (fuel : Nat) (ks : Keyspace) (rest : List Char)
    (first : RespValue) (args : List RespValue)
    (h : List RespValue → Keyspace → RespValue × Keyspace)
    (hclean : cleanValue (.array (first :: args)) = true)
    (hnull : endsWithNull (.array (first :: args)) = false)
    (hh : handlersLookup ((RespValue.bulkField first).map toUpperChar) = some h) :
    replayLoop (fuel + 1) (marshal (.array (first :: args)) ++ rest) ks =
      replayLoop fuel rest (h args ks).2 := by
  have hm : marshal (RespValue.array (first :: args)) =
      '*' :: (natToChars (first :: args).length ++ ['\r', '\n'] ++ marshalList (first :: args)) :=
    rfl
  have hD : marshal (RespValue.array (first :: args)) ++ rest =
      '*' :: ((natToChars (first :: args).length ++ ['\r', '\n'] ++ marshalList (first :: args))
        ++ rest) := by
    rw [hm]
    rfl
  have hfuel : nodes (RespValue.array (first :: args)) ≤
      (marshal (RespValue.array (first :: args)) ++ rest).length + 1 := by
    have ha := nodes_le_marshal (RespValue.array (first :: args))
    have hb : (marshal (RespValue.array (first :: args))).length ≤
        (marshal (RespValue.array (first :: args)) ++ rest).length := by
      simp [List.length_append]
    omega
  have hread := readOne_marshal (RespValue.array (first :: args)) rest
    ((marshal (RespValue.array (first :: args)) ++ rest).length + 1) hclean hfuel
  have hpad : (if endsWithNull (RespValue.array (first :: args)) = true
      then '\r' :: '\n' :: rest else rest) = rest := by
    rw [hnull]
    simp
  rw [hpad] at hread
  rw [hD] at hread ⊢
  have hcrlf : isCrlfByte '*' = false := rfl
  simp only [replayLoop]
  rw [List.dropWhile_cons, hcrlf]
  simp only [Bool.false_eq_true, if_false, ite_false]
  rw [hread]
  show (match handlersLookup ((RespValue.bulkField first).map toUpperChar) with
      | none => (Except.error "unknown command in AOF" : Except String Keyspace)
      | some h2 => replayLoop fuel rest (h2 args ks).2) =
    replayLoop fuel rest (h args ks).2
  rw [hh]

theorem replayLoop_records (cmds : List RespValue) :
    ∀ fuel ks, (∀ cmd ∈ cmds, GoodRecord cmd) →
      (marshalList cmds).length < fuel →
      replayLoop fuel (marshalList cmds) ks = .ok (cmds.foldl replayApply ks) := by
  induction cmds with
  | nil =>
    intro fuel ks _ hfuel
    apply replayLoop_empty fuel _ ks (by omega)
    rfl
  | cons c t ih =>
    intro fuel ks hgood hfuel
    obtain ⟨hclean, hnull, first, args, hc, hsome⟩ := hgood c (List.mem_cons_self c t)
    subst hc
    cases fuel with
    | zero => omega
    | succ f =>
      obtain ⟨h, hh⟩ := Option.isSome_iff_exists.mp hsome
      have hmar : marshalList (RespValue.array (first :: args) :: t) =
          marshal (RespValue.array (first :: args)) ++ marshalList t := rfl
      rw [hmar, replayLoop_record f ks (marshalList t) first args h hclean hnull hh,
        List.foldl_cons, replayApply_record ks first args h hh]
      apply ih f _ (fun cmd hm => hgood cmd (List.mem_cons_of_mem _ hm))
      have hlen : 1 ≤ (marshal (RespValue.array (first :: args))).length := by
        have := marshal_ne_nil (RespValue.array (first :: args))
        cases hcase : marshal (RespValue.array (first :: args)) with
        | nil => exact absurd hcase this
        | cons a b => simp
      rw [hmar] at hfuel
      rw [List.length_append] at hfuel
      omega

theorem aofRead_records (cmds : List RespValue) (ks : Keyspace)
    (h : ∀ cmd ∈ cmds, GoodRecord cmd) :
    aofRead (marshalList cmds) ks = .ok (cmds.foldl replayApply ks) := by
  apply replayLoop_records cmds _ ks h
  omega

theorem goodRecord_setCmd (k v : List Char) : GoodRecord (setCmd k v) :=
  ⟨rfl, rfl, .bulk "SET".data, [.bulk k, .bulk v], rfl, rfl⟩

theorem goodRecord_delCmd (k : List Char) : GoodRecord (delCmd k) :=
  ⟨rfl, rfl, .bulk "DEL".data, [.bulk k], rfl, rfl⟩

theorem delLoop_cons_found (a : RespValue) (t : List RespValue) (ks : Keyspace) (n : Nat)
    (h : ksContains ks (trimSpace a.bulkField) = true) :
    delLoop (a :: t) ks n = delLoop t (ksErase ks (trimSpace a.bulkField)) (n + 1) := by
  simp [delLoop, h]

theorem delLoop_cons_missing (a : RespValue) (t : List RespValue) (ks : Keyspace) (n : Nat)
    (h : ksContains ks (trimSpace a.bulkField) = false) :
    delLoop (a :: t) ks n = delLoop t ks n := by
  simp [delLoop, h]

/-- The connection handler on a well-formed GET command: the command is
appended to the AOF log even though the handler never changes the
keyspace. -/
theorem handleCommand_get (st : ServerState) (k : List Char) :
    handleCommand (marshal (.array [.bulk "GET".data, .bulk k])) st =
      ((get [.bulk k] st.ks).1,
        ⟨st.ks, st.aofLog ++ marshal (.array [.bulk "GET".data, .bulk k])⟩) := by
  have hclean : cleanValue (RespValue.array [.bulk "GET".data, .bulk k]) = true := rfl
  have hnull : endsWithNull (RespValue.array [.bulk "GET".data, .bulk k]) = false := rfl
  have hfuel : nodes (RespValue.array [.bulk "GET".data, .bulk k]) ≤
      (marshal (RespValue.array [.bulk "GET".data, .bulk k])).length + 1 := by
    have := nodes_le_marshal (RespValue.array [.bulk "GET".data, .bulk k])
    omega
  have hread := readOne_marshal (RespValue.array [.bulk "GET".data, .bulk k]) []
    ((marshal (RespValue.array [.bulk "GET".data, .bulk k])).length + 1) hclean hfuel
  rw [List.append_nil] at hread
  have hpad : (if endsWithNull (RespValue.array [.bulk "GET".data, .bulk k]) = true
      then '\r' :: '\n' :: ([] : List Char) else []) = [] := by
    rw [hnull]
    simp
  rw [hpad] at hread
  simp only [handleCommand]
  rw [hread]
  show ((get [.bulk k] st.ks).1, ServerState.mk (get [.bulk k] st.ks).2
      (st.aofLog ++ marshal (RespValue.array [.bulk "GET".data, .bulk k]))) =
    ((get [.bulk k] st.ks).1,
      ServerState.mk st.ks (st.aofLog ++ marshal (RespValue.array [.bulk "GET".data, .bulk k])))
  rw [get_keyspace_unchanged]

/-! Claim theorems. -/

/-- C1, counterexample: the round-trip law fails as stated.  A simple
string whose text contains the CRLF pair decodes to a truncated value,
and an array with a null element followed by a further element fails to
decode at all, because the encoder writes a CRLF after the null that the
decoder never consumes. -/
theorem c1_counterexample :
    respReadValue (marshal (.simpleStr "a\r\nb".data)) = .ok (.simpleStr "a".data)
    ∧ (RespValue.simpleStr "a".data) ≠ .simpleStr "a\r\nb".data
    ∧ respReadValue (marshal (.array [.null, .integer 1])) =
        .error "array item: unknown RESP type" := by
  refine ⟨by rfl, by decide, by rfl⟩

/-- C1, amended: decode of encode returns the value exactly for every
representable value in which no simple-string or error text contains the
CRLF pair and no null occurs in an array followed by a further element;
this covers the empty array, the zero-length bulk string, bulk strings
with arbitrary bytes, full-range integers, and the wire nulls (both the
length -1 bulk form and the length -1 array form decode to the single
Null value, which round-trips through the underscore form). -/
theorem c1_round_trip_clean (v : RespValue) (h : cleanValue v = true) :
    respReadValue (marshal v) = .ok v :=
  respReadValue_marshal v h

theorem c1_round_trip_clean_witness :
    cleanValue (.array [.bulk "ab\r\n".data, .integer (-42), .simpleStr "x".data,
      .array [], .bulk [], .null]) = true
    ∧ respReadValue (marshal (.array [.bulk "ab\r\n".data, .integer (-42),
        .simpleStr "x".data, .array [], .bulk [], .null])) =
      .ok (.array [.bulk "ab\r\n".data, .integer (-42), .simpleStr "x".data,
        .array [], .bulk [], .null]) :=
  ⟨by rfl, c1_round_trip_clean _ (by rfl)⟩

/-- C2, counterexample: replaying a log whose final record is truncated
mid-write (an array announcing a three-byte bulk string of which only
two bytes are present) is a fatal parse error in `Aof.Read`, not a clean
end of replay. -/
theorem c2_counterexample :
    aofRead "*1\r\n$3\r\nab".data [] =
      .error "error parsing AOF command: array item: bulk string out of bounds" := by
  rfl

/-- C2, amended: during replay every decode failure is fatal at startup,
including one caused by a truncated final record; replay ends cleanly
with success exactly when the remaining bytes are empty or only CR and
LF bytes, which `HasNext` skips. -/
theorem c2_replay_eof_behavior :
    (∀ (ks : Keyspace) (d : List Char), d.dropWhile isCrlfByte = [] → aofRead d ks = .ok ks)
    ∧ (∀ ks : Keyspace, aofRead "*1\r\n$3\r\nab".data ks =
        .error "error parsing AOF command: array item: bulk string out of bounds") := by
  constructor
  · intro ks d hd
    exact replayLoop_empty (d.length + 1) d ks (by omega) hd
  · intro ks
    rfl

theorem c2_replay_eof_behavior_witness :
    aofRead ['\r', '\n'] [] = .ok []
    ∧ aofRead "*1\r\n$3\r\nab".data [("x".data, .null)] =
        .error "error parsing AOF command: array item: bulk string out of bounds" :=
  ⟨c2_replay_eof_behavior.1 [] ['\r', '\n'] (by rfl),
    c2_replay_eof_behavior.2 [("x".data, .null)]⟩

/-- C3, counterexample: the two wire forms with length field -1 decode
to the same value: the bulk-string form and the array form both produce
the single Null constructor, so the decoded model does not keep an
absent bulk string distinct from an absent array. -/
theorem c3_counterexample :
    respReadValue "$-1\r\n".data = .ok .null
    ∧ respReadValue "*-1\r\n".data = .ok .null := by
  exact ⟨by rfl, by rfl⟩

/-- C3, amended: both length -1 wire forms decode to the one Null value,
which is distinct from the present-but-empty bulk string (the $0 form)
and from the present-but-empty array (the *0 form), and those two empty
forms are distinct from each other; absent bulk string and absent array
are not distinct states of the decoded model. -/
theorem c3_null_decoding :
    respReadValue "$-1\r\n".data = .ok .null
    ∧ respReadValue "*-1\r\n".data = .ok .null
    ∧ respReadValue "$0\r\n\r\n".data = .ok (.bulk [])
    ∧ respReadValue "*0\r\n".data = .ok (.array [])
    ∧ (RespValue.null ≠ .bulk [])
    ∧ (RespValue.null ≠ .array [])
    ∧ (RespValue.bulk [] ≠ .array []) := by
  refine ⟨by rfl, by rfl, by rfl, by rfl, by decide, by decide, by decide⟩

/-- C4, counterexample: `ping` with a non-bulk argument does not return
the error message named by the specification; it returns a bulk string
built from the empty `Bulk` field of the argument. -/
theorem c4_counterexample :
    ping [.integer 5] [] = (.bulk [], [])
    ∧ (RespValue.bulk []) ≠ .errMsg "Invalid PING argument".data := by
  exact ⟨by rfl, by decide⟩

/-- C4, amended: `ping` with no arguments returns the simple string
PONG; with one or more arguments of any type it returns a bulk string
joining the `Bulk` fields of the arguments with single spaces, a
non-bulk argument contributing its empty `Bulk` field rather than an
error; the keyspace is returned unchanged in both cases. -/
theorem c4_ping_behavior (args : List RespValue) (ks : Keyspace) :
    (args = [] → ping args ks = (.simpleStr "PONG".data, ks))
    ∧ (args ≠ [] → ping args ks =
        (.bulk (List.intercalate [' '] (args.map RespValue.bulkField)), ks)) := by
  constructor
  · intro h
    subst h
    rfl
  · intro h
    cases args with
    | nil => exact absurd rfl h
    | cons a t =>
      have hlen : ¬((a :: t).length = 0) := by simp
      show (if (a :: t).length = 0 then ((.simpleStr "PONG".data : RespValue), ks)
        else (.bulk (List.intercalate [' '] ((a :: t).map RespValue.bulkField)), ks)) = _
      rw [if_neg hlen]

theorem c4_ping_behavior_witness :
    ping [] [] = (.simpleStr "PONG".data, [])
    ∧ ping [.bulk "hello".data, .bulk "world".data] [] =
        (.bulk (List.intercalate [' ']
          ([RespValue.bulk "hello".data, .bulk "world".data].map RespValue.bulkField)), []) :=
  ⟨(c4_ping_behavior [] []).1 rfl,
    (c4_ping_behavior [.bulk "hello".data, .bulk "world".data] []).2 (by decide)⟩

/-- C5, counterexample: the arity error of `set` carries the ERR prefix,
so it differs from the message text quoted by the specification; and the
stored key is the whitespace-trimmed argument, not the argument itself. -/
theorem c5_counterexample :
    (set [] []).1 = .errMsg (arityErr "SET".data)
    ∧ arityErr "SET".data ≠ specArityMsg "SET".data
    ∧ (set [.bulk " k ".data, .bulk "v".data] []).2 = [("k".data, .bulk "v".data)] := by
  refine ⟨by rfl, by decide, by rfl⟩

/-- C5, amended: `set` with exactly two arguments unconditionally stores
the value under the whitespace-trimmed key, overwriting any previous
binding, and returns the simple string OK; with any other argument count
it returns the arity error message with the ERR prefix and leaves the
keyspace unchanged; storing then reading the same key returns the stored
bulk value. -/
theorem c5_set_behavior :
    (∀ (ks : Keyspace) (args : List RespValue), args.length ≠ 2 →
      set args ks = (.errMsg (arityErr "SET".data), ks))
    ∧ (∀ (a0 a1 : RespValue) (ks : Keyspace),
        set [a0, a1] ks = (.simpleStr "OK".data, ksSet (trimSpace a0.bulkField) a1 ks))
    ∧ (∀ (k v : List Char) (ks : Keyspace),
        (get [.bulk k] (set [.bulk k, .bulk v] ks).2).1 = .bulk v) := by
  refine ⟨fun ks args h => set_arity ks args h, fun a0 a1 ks => rfl, fun k v ks => ?_⟩
  have h2 : (set [.bulk k, .bulk v] ks).2 = ksSet (trimSpace k) (.bulk v) ks := rfl
  rw [h2, get_found (.bulk k) (ksSet (trimSpace k) (.bulk v) ks) (.bulk v)
    (ksFind_ksSet_self ks (trimSpace k) (.bulk v))]

theorem c5_set_behavior_witness :
    set [] [] = (.errMsg (arityErr "SET".data), [])
    ∧ set [.bulk "k".data, .bulk "v".data] [] =
        (.simpleStr "OK".data,
          ksSet (trimSpace (RespValue.bulkField (.bulk "k".data))) (.bulk "v".data) [])
    ∧ (get [.bulk "k".data] (set [.bulk "k".data, .bulk "v".data] []).2).1 = .bulk "v".data :=
  ⟨c5_set_behavior.1 [] [] (by decide), c5_set_behavior.2.1 (.bulk "k".data) (.bulk "v".data) [],
    c5_set_behavior.2.2 "k".data "v".data []⟩

/-- C6, counterexample: the arity error of `get` carries the ERR prefix,
differing from the specification text; and the connection handler
appends a decoded GET command to the persistence log before dispatching
it, so GET is logged. -/
theorem c6_counterexample :
    (get [] []).1 = .errMsg (arityErr "GET".data)
    ∧ arityErr "GET".data ≠ specArityMsg "GET".data
    ∧ (handleCommand (marshal (.array [.bulk "GET".data, .bulk "k".data]))
        (ServerState.mk [] [])).2.aofLog ≠ [] := by
  refine ⟨by rfl, by decide, by decide⟩

/-- C6, amended: `get` with exactly one argument returns the value
stored under the whitespace-trimmed key when present and Null when
absent; with any other argument count it returns the arity error message
with the ERR prefix; `get` never changes the keyspace, but the
connection handler appends every recognized command, including GET, to
the append-only log before running its handler. -/
theorem c6_get_behavior :
    (∀ (ks : Keyspace) (args : List RespValue), args.length ≠ 1 →
      get args ks = (.errMsg (arityErr "GET".data), ks))
    ∧ (∀ (a0 : RespValue) (ks : Keyspace) (v : RespValue),
        ksFind ks (trimSpace a0.bulkField) = some v → get [a0] ks = (v, ks))
    ∧ (∀ (a0 : RespValue) (ks : Keyspace),
        ksFind ks (trimSpace a0.bulkField) = none → get [a0] ks = (.null, ks))
    ∧ (∀ (st : ServerState) (k : List Char),
        handleCommand (marshal (.array [.bulk "GET".data, .bulk k])) st =
          ((get [.bulk k] st.ks).1,
            ServerState.mk st.ks
              (st.aofLog ++ marshal (.array [.bulk "GET".data, .bulk k])))) :=
  ⟨fun ks args h => get_arity ks args h,
    fun a0 ks v h => get_found a0 ks v h,
    fun a0 ks h => get_absent a0 ks h,
    fun st k => handleCommand_get st k⟩

theorem c6_get_behavior_witness :
    get [] [] = (.errMsg (arityErr "GET".data), [])
    ∧ get [.bulk "k".data] [("k".data, .bulk "v".data)] =
        (.bulk "v".data, [("k".data, .bulk "v".data)])
    ∧ get [.bulk "k".data] [] = (.null, [])
    ∧ handleCommand (marshal (.array [.bulk "GET".data, .bulk "k".data]))
        (ServerState.mk [] []) =
      ((get [.bulk "k".data] (ServerState.mk ([] : Keyspace) ([] : List Char)).ks).1,
        ServerState.mk (ServerState.mk ([] : Keyspace) ([] : List Char)).ks
          ((ServerState.mk ([] : Keyspace) ([] : List Char)).aofLog ++
            marshal (.array [.bulk "GET".data, .bulk "k".data]))) :=
  ⟨c6_get_behavior.1 [] [] (by decide),
    c6_get_behavior.2.1 (.bulk "k".data) [("k".data, .bulk "v".data)] (.bulk "v".data) (by rfl),
    c6_get_behavior.2.2.1 (.bulk "k".data) [] (by rfl),
    c6_get_behavior.2.2.2 (ServerState.mk [] []) "k".data⟩

/-- C7, counterexample: the arity error of `del` carries the ERR prefix
and so differs from the message text quoted by the specification. -/
theorem c7_counterexample :
    (del [] []).1 = .errMsg (arityErr "DEL".data)
    ∧ arityErr "DEL".data ≠ specArityMsg "DEL".data := by
  exact ⟨by rfl, by decide⟩

/-- C7, amended: `del` with no arguments returns the arity error message
with the ERR prefix and an unchanged keyspace; with arguments it removes
each named whitespace-trimmed key that is present and returns the count
of keys actually removed: one key present and one absent counts one,
a single absent key counts zero, and every named key is absent from the
resulting keyspace. -/
theorem c7_del_behavior :
    (∀ ks : Keyspace, del [] ks = (.errMsg (arityErr "DEL".data), ks))
    ∧ (∀ (ks : Keyspace) (v : RespValue), ksFind ks "a".data = some v →
        ksFind ks "b".data = none →
        (del [.bulk "a".data, .bulk "b".data] ks).1 = .integer 1)
    ∧ (∀ (ks : Keyspace) (k : List Char), ksFind ks (trimSpace k) = none →
        del [.bulk k] ks = (.integer 0, ks))
    ∧ (∀ (args : List RespValue) (ks : Keyspace) (key : List Char),
        key ∈ args.map (fun a => trimSpace a.bulkField) →
        ksFind (del args ks).2 key = none) := by
  refine ⟨fun ks => del_arity ks, ?_, ?_, ?_⟩
  · intro ks v hfa hfb
    have hta : trimSpace (RespValue.bulkField (.bulk "a".data)) = "a".data := rfl
    have htb : trimSpace (RespValue.bulkField (.bulk "b".data)) = "b".data := rfl
    have hc1 : ksContains ks (trimSpace (RespValue.bulkField (.bulk "a".data))) = true := by
      rw [ksContains, hta, hfa]
      rfl
    have hc2 : ksContains (ksErase ks (trimSpace (RespValue.bulkField (.bulk "a".data))))
        (trimSpace (RespValue.bulkField (.bulk "b".data))) = false := by
      rw [ksContains, hta, htb, ksFind_ksErase, if_neg (show ¬("a".data = "b".data) by decide),
        hfb]
      rfl
    have hloop : delLoop [.bulk "a".data, .bulk "b".data] ks 0 =
        (ksErase ks (trimSpace (RespValue.bulkField (.bulk "a".data))), 1) := by
      rw [delLoop_cons_found _ _ _ _ hc1, delLoop_cons_missing _ _ _ _ hc2]
      rfl
    show RespValue.integer ((delLoop [.bulk "a".data, .bulk "b".data] ks 0).2 : Int) = .integer 1
    rw [hloop]
    rfl
  · intro ks k h
    have hc : ksContains ks (trimSpace (RespValue.bulkField (.bulk k))) = false := by
      rw [ksContains]
      show (ksFind ks (trimSpace k)).isSome = false
      rw [h]
      rfl
    show (RespValue.integer ((delLoop [.bulk k] ks 0).2 : Int), (delLoop [.bulk k] ks 0).1) =
      (.integer 0, ks)
    rw [delLoop_cons_missing _ _ _ _ hc]
    rfl
  · intro args ks key hkey
    cases args with
    | nil => simp at hkey
    | cons a t =>
      show ksFind (delLoop (a :: t) ks 0).1 key = none
      exact delLoop_removes (a :: t) ks 0 key hkey

theorem c7_del_behavior_witness :
    del [] [] = (.errMsg (arityErr "DEL".data), [])
    ∧ (del [.bulk "a".data, .bulk "b".data] [("a".data, .null)]).1 = .integer 1
    ∧ del [.bulk "x".data] [] = (.integer 0, [])
    ∧ ksFind (del [.bulk "a".data] [("a".data, .null)]).2 "a".data = none :=
  ⟨c7_del_behavior.1 [],
    c7_del_behavior.2.1 [("a".data, .null)] .null (by rfl) (by rfl),
    c7_del_behavior.2.2.1 [] "x".data (by rfl),
    c7_del_behavior.2.2.2 [.bulk "a".data] [("a".data, .null)] "a".data (by decide)⟩

/-- C8, counterexample: the arity errors returned for wrong argument
counts carry the ERR prefix, so they differ from the message text the
specification names; shown here for `get` with two arguments. -/
theorem c8_counterexample :
    (get [.bulk "a".data, .bulk "b".data] []).1 = .errMsg (arityErr "GET".data)
    ∧ arityErr "GET".data ≠ specArityMsg "GET".data := by
  exact ⟨by rfl, by decide⟩

/-- C8, amended: for every keyspace, `get` with an argument count other
than one, `set` with a count other than two, and `del` with no
arguments return their respective ERR-prefixed arity error message and
leave the keyspace exactly unchanged. -/
theorem c8_arity_keyspace (ks : Keyspace) (args : List RespValue) :
    (args.length ≠ 1 → get args ks = (.errMsg (arityErr "GET".data), ks))
    ∧ (args.length ≠ 2 → set args ks = (.errMsg (arityErr "SET".data), ks))
    ∧ (args = [] → del args ks = (.errMsg (arityErr "DEL".data), ks)) :=
  ⟨fun h => get_arity ks args h, fun h => set_arity ks args h,
    fun h => by subst h; exact del_arity ks⟩

theorem c8_arity_keyspace_witness :
    (get [] [("z".data, .null)] = (.errMsg (arityErr "GET".data), [("z".data, .null)]))
    ∧ (set [] [("z".data, .null)] = (.errMsg (arityErr "SET".data), [("z".data, .null)]))
    ∧ (del [] [("z".data, .null)] = (.errMsg (arityErr "DEL".data), [("z".data, .null)])) :=
  ⟨(c8_arity_keyspace [("z".data, .null)] []).1 (by decide),
    (c8_arity_keyspace [("z".data, .null)] []).2.1 (by decide),
    (c8_arity_keyspace [("z".data, .null)] []).2.2 rfl⟩

/-- C9, confirmed: replaying the encoded log SET k v1, SET k v2, DEL k
from the empty keyspace leaves a keyspace without k (it is empty), and
replaying the same log truncated after the first two records leaves
exactly the binding of k to the bulk value v2; stated for any key
without surrounding white space and any two values. -/
theorem c9_replay_determinism (k v1 v2 : List Char) (hk : trimSpace k = k) :
    aofRead (marshalList [setCmd k v1, setCmd k v2, delCmd k]) [] = .ok []
    ∧ aofRead (marshalList [setCmd k v1, setCmd k v2]) [] = .ok [(k, .bulk v2)] := by
  have hgood3 : ∀ cmd ∈ [setCmd k v1, setCmd k v2, delCmd k], GoodRecord cmd := by
    intro cmd hm
    simp only [List.mem_cons, List.not_mem_nil, or_false] at hm
    rcases hm with h | h | h <;> subst h
    · exact goodRecord_setCmd k v1
    · exact goodRecord_setCmd k v2
    · exact goodRecord_delCmd k
  have hgood2 : ∀ cmd ∈ [setCmd k v1, setCmd k v2], GoodRecord cmd := by
    intro cmd hm
    simp only [List.mem_cons, List.not_mem_nil, or_false] at hm
    rcases hm with h | h <;> subst h
    · exact goodRecord_setCmd k v1
    · exact goodRecord_setCmd k v2
  have eset : ∀ (v : List Char) (ks : Keyspace),
      replayApply ks (setCmd k v) = ksSet k (.bulk v) ks := by
    intro v ks
    show replayApply ks (.array (.bulk "SET".data :: [.bulk k, .bulk v])) = _
    rw [replayApply_record ks (.bulk "SET".data) [.bulk k, .bulk v] set rfl]
    show ksSet (trimSpace k) (.bulk v) ks = ksSet k (.bulk v) ks
    rw [hk]
  have edel : replayApply [(k, .bulk v2)] (delCmd k) = [] := by
    show replayApply [(k, .bulk v2)] (.array (.bulk "DEL".data :: [.bulk k])) = _
    rw [replayApply_record _ (.bulk "DEL".data) [.bulk k] del rfl]
    have hc : ksContains [(k, .bulk v2)] (trimSpace (RespValue.bulkField (.bulk k))) = true := by
      show (ksFind [(k, .bulk v2)] (trimSpace k)).isSome = true
      rw [hk]
      simp [ksFind]
    show (delLoop [.bulk k] [(k, .bulk v2)] 0).1 = []
    rw [delLoop_cons_found _ _ _ _ hc]
    show ksErase [(k, .bulk v2)] (trimSpace k) = []
    rw [hk]
    simp [ksErase]
  have hset1 : ksSet k (.bulk v1) ([] : Keyspace) = [(k, .bulk v1)] := rfl
  have hset2 : ksSet k (.bulk v2) [(k, .bulk v1)] = [(k, .bulk v2)] := by
    show (k, RespValue.bulk v2) :: ksErase [(k, .bulk v1)] k = [(k, .bulk v2)]
    simp [ksErase]
  constructor
  · rw [aofRead_records _ _ hgood3]
    simp only [List.foldl_cons, List.foldl_nil]
    rw [eset v1 [], hset1, eset v2 _, hset2, edel]
  · rw [aofRead_records _ _ hgood2]
    simp only [List.foldl_cons, List.foldl_nil]
    rw [eset v1 [], hset1, eset v2 _, hset2]

theorem c9_replay_determinism_witness :
    trimSpace "k".data = "k".data
    ∧ (aofRead (marshalList [setCmd "k".data "v1".data, setCmd "k".data "v2".data,
          delCmd "k".data]) [] = .ok []
      ∧ aofRead (marshalList [setCmd "k".data "v1".data, setCmd "k".data "v2".data]) [] =
          .ok [("k".data, .bulk "v2".data)]) :=
  ⟨rfl, c9_replay_determinism "k".data "v1".data "v2".data rfl⟩

/-- C10, confirmed: the set, get and del handlers use the
whitespace-trimmed key, so keys differing only by surrounding ASCII
white space alias the same entry: storing under one spelling and
reading under another returns the stored value, and deleting under
another spelling removes the binding. -/
theorem c10_key_trimming (k₁ k₂ : List Char) (v : RespValue) (ks : Keyspace)
    (h : trimSpace k₁ = trimSpace k₂) :
    (get [.bulk k₂] (set [.bulk k₁, v] ks).2).1 = v
    ∧ ksFind (del [.bulk k₂] (set [.bulk k₁, v] ks).2).2 (trimSpace k₁) = none := by
  have hset : (set [.bulk k₁, v] ks).2 = ksSet (trimSpace k₁) v ks := rfl
  constructor
  · rw [hset]
    have hfind : ksFind (ksSet (trimSpace k₁) v ks)
        (trimSpace (RespValue.bulkField (.bulk k₂))) = some v := by
      show ksFind (ksSet (trimSpace k₁) v ks) (trimSpace k₂) = some v
      rw [← h]
      exact ksFind_ksSet_self ks (trimSpace k₁) v
    rw [get_found _ _ _ hfind]
  · rw [hset]
    show ksFind (delLoop [.bulk k₂] (ksSet (trimSpace k₁) v ks) 0).1 (trimSpace k₁) = none
    apply delLoop_removes
    simp [h, RespValue.bulkField]

theorem c10_key_trimming_witness :
    trimSpace " k ".data = trimSpace "k".data
    ∧ ((get [.bulk "k".data] (set [.bulk " k ".data, .null] []).2).1 = .null
      ∧ ksFind (del [.bulk "k".data] (set [.bulk " k ".data, .null] []).2).2
          (trimSpace " k ".data) = none) :=
  ⟨rfl, c10_key_trimming " k ".data "k".data .null [] rfl⟩

end RedisLite
